import Mathlib

/-!
Verification of the Prisjakt scraping pipeline (`src/lib/prisjakt-api.ts` area,
file `part_001`).  The TypeScript code is shallowly embedded: JS numbers are
modelled as `ℚ` (JSON and the price parser never produce non-finite values;
`NaN` results of `Number(...)` are modelled as `Option.none`), JS strings as
`String`, and the regex-driven feature extraction over a raw HTML string is
modelled by a `Page` structure whose fields hold exactly the capture groups the
source's regexes extract (one field per regex used by the code).  The network
is a function `String → FetchResult`; the `catch` blocks of the two entry
points are modelled by the `.thrown` branch.
-/

namespace Prisjakt

/-- The closed availability enum from `types/ram.ts`. -/
inductive AvailabilityStatus where
  | in_stock
  | incoming
  | not_available
deriving DecidableEq, Repr

/-- `PrisjaktProduct` from `types/ram.ts` (the `Offer` of the spec). -/
structure PrisjaktProduct where
  id : String
  name : String
  price : ℚ
  currency : String
  store : String
  storeUrl : String
  availability : AvailabilityStatus
  imageUrl : Option String := none
deriving DecidableEq, Repr

/-! ## String utilities

Executable models of the JS string operations the scraper uses.  JS
`\s` / `trim` accept a slightly larger whitespace set than `Char.isWhitespace`
(e.g. NBSP); the difference does not affect any claim below. -/

/-- Case fold as JS `toLowerCase`, restricted to ASCII plus the Swedish
letters that occur in the scraper's patterns. -/
def jsLowerChar (c : Char) : Char :=
  if 'A' ≤ c ∧ c ≤ 'Z' then Char.ofNat (c.toNat + 32)
  else if c = 'Å' then 'å'
  else if c = 'Ä' then 'ä'
  else if c = 'Ö' then 'ö'
  else if c = 'É' then 'é'
  else if c = 'Ü' then 'ü'
  else c

def jsLowerStr (s : String) : String :=
  String.mk (s.data.map jsLowerChar)

/-- Does `needle` occur as a contiguous substring of the character list? -/
def listHasInfix (needle : List Char) : List Char → Bool
  | [] => needle.isEmpty
  | c :: rest => needle.isPrefixOf (c :: rest) || listHasInfix needle rest

/-- `hay.includes(needle)` / `regex.test` for a literal pattern. -/
def strContains (hay needle : String) : Bool :=
  listHasInfix needle.data hay.data

/-- JS `String.prototype.startsWith` (structural, so that it evaluates by
kernel reduction). -/
def startsWithStr (s pre : String) : Bool :=
  pre.data.isPrefixOf s.data

/-- Trim (JS `String.prototype.trim`, ASCII whitespace). -/
def trimList (cs : List Char) : List Char :=
  ((cs.dropWhile Char.isWhitespace).reverse.dropWhile Char.isWhitespace).reverse

def trimStr (s : String) : String :=
  String.mk (trimList s.data)

/-- One pass of `replace(/\s+/g, ' ')`: collapse each whitespace run to a
single space.  `prevWs` records whether the previous character was part of a
run already emitted. -/
def collapseWsGo (prevWs : Bool) : List Char → List Char
  | [] => []
  | c :: rest =>
    if c.isWhitespace then
      if prevWs then collapseWsGo true rest
      else ' ' :: collapseWsGo true rest
    else c :: collapseWsGo false rest

/-- Model of `replace(/<[^>]*>/g, '')`.  While inside a candidate tag the
consumed characters are buffered (in reverse); a tag that never closes is kept
verbatim, exactly as the regex (which requires a closing `>`) would. -/
def removeTagsGo (pending : Option (List Char)) : List Char → List Char
  | [] => match pending with
    | none => []
    | some buf => buf.reverse
  | c :: rest =>
    match pending with
    | none => if c = '<' then removeTagsGo (some ['<']) rest else c :: removeTagsGo none rest
    | some buf => if c = '>' then removeTagsGo none rest else removeTagsGo (some (c :: buf)) rest

/-- `stripTags` from the source: drop tags, collapse whitespace, trim. -/
def stripTags (s : String) : String :=
  trimStr (String.mk (collapseWsGo false (removeTagsGo none s.data)))

/-- `replace(/\s+/g, ' ').trim()` applied after `stripTags` (the code uses
this combination for titles and store labels). -/
def squashWs (s : String) : String :=
  trimStr (String.mk (collapseWsGo false s.data))

/-- Global literal string replacement (JS `replace(/pat/g, rep)` for a literal
pattern; the replacement is not rescanned).  The fuel starts at the input
length and each step consumes at least one character, so it never runs out. -/
def replaceGo (pat rep : List Char) : ℕ → List Char → List Char
  | _, [] => []
  | 0, cs => cs
  | fuel + 1, c :: rest =>
    if pat ≠ [] ∧ pat.isPrefixOf (c :: rest) then
      rep ++ replaceGo pat rep fuel (List.drop (pat.length - 1) rest)
    else
      c :: replaceGo pat rep fuel rest

def replaceAllStr (s pat rep : String) : String :=
  String.mk (replaceGo pat.data rep.data s.data.length s.data)

/-- First-occurrence-only `replace(',', '.')` (a JS string pattern replaces
only the first match). -/
def replFirstComma : List Char → List Char
  | [] => []
  | c :: rest => if c = ',' then '.' :: rest else c :: replFirstComma rest

/-- `replace(/[^0-9.,]/g, '')`. -/
def keepNumChars (s : String) : String :=
  String.mk (s.data.filter (fun c => c.isDigit || c = '.' || c = ','))

/-- `decodeHtml` from the source (sequential global replaces). -/
def decodeHtml (s : String) : String :=
  replaceAllStr (replaceAllStr (replaceAllStr (replaceAllStr (replaceAllStr s
    "&amp;" "&") "&lt;" "<") "&gt;" ">") "&quot;" "\"") "&#39;" (String.singleton (Char.ofNat 39))

/-! ## JS `Number(...)` on price strings

After `replace(/[^0-9.,]/g, '')` the argument consists only of digits, `.`
and `,`; `jsNumber` models `Number` on that alphabet (`none` = `NaN`). -/

def digitsVal (cs : List Char) : ℕ :=
  cs.foldl (fun n c => 10 * n + (c.toNat - '0'.toNat)) 0

/-- Split at the first `'.'`: characters before it, and (if present) the rest. -/
def splitDot : List Char → List Char × Option (List Char)
  | [] => ([], none)
  | c :: rest =>
    if c = '.' then ([], some rest)
    else
      let p := splitDot rest
      (c :: p.1, p.2)

def jsNumber (s : String) : Option ℚ :=
  let cs := s.data
  if cs.contains ',' then none
  else
    let p := splitDot cs
    match p.2 with
    | none =>
      if p.1 = [] then some 0
      else if p.1.all Char.isDigit then some (digitsVal p.1 : ℚ) else none
    | some b =>
      if b.contains '.' then none
      else if p.1 = [] ∧ b = [] then none
      else if (p.1 ++ b).all Char.isDigit then
        some ((digitsVal p.1 : ℚ) + (digitsVal b : ℚ) / (10 : ℚ) ^ b.length)
      else none

/-- `Number(raw.replace(/[^0-9.,]/g, '').replace(',', '.'))`. -/
def parsePricePlain (raw : String) : Option ℚ :=
  jsNumber (String.mk (replFirstComma (keepNumChars raw).data))

/-- `Number(raw.replace(/&nbsp;/g, '').replace(/[^0-9.,]/g, '').replace(',', '.'))`. -/
def parsePriceNbsp (raw : String) : Option ℚ :=
  parsePricePlain (replaceAllStr raw "&nbsp;" "")

/-! ## Normalizer -/

/-- `toAvailability` from the source.  `none` models `undefined`; the
empty string is falsy in JS, so it also yields `not_available`. -/
def toAvailability (avail : Option String) : AvailabilityStatus :=
  match avail with
  | none => .not_available
  | some a =>
    if a = "" then .not_available
    else
      let s := jsLowerStr a
      if strContains s "instock" || strContains s "in_stock" ||
         strContains s "in stock" || strContains s "available" then .in_stock
      else if strContains s "preorder" || strContains s "pre-order" ||
              strContains s "backorder" then .incoming
      else .not_available

/-- `filterPrisjaktStore`: drop offers whose store matches `/(prisjakt)/i`. -/
def filterPrisjaktStore (products : List PrisjaktProduct) : List PrisjaktProduct :=
  products.filter (fun p => !(strContains (jsLowerStr p.store) "prisjakt"))

/-! ## `dedupeProducts` -/

/-- The identity key `` `${p.name}|${p.store}|${p.storeUrl}` ``. -/
def dedupeKey (p : PrisjaktProduct) : String :=
  p.name ++ "|" ++ p.store ++ "|" ++ p.storeUrl

/-- The loop of `dedupeProducts`; `seen` models the `Set<string>`. -/
def dedupeGo (seen : List String) : List PrisjaktProduct → List PrisjaktProduct
  | [] => []
  | p :: rest =>
    if dedupeKey p ∈ seen then dedupeGo seen rest
    else p :: dedupeGo (dedupeKey p :: seen) rest

def dedupeProducts (list : List PrisjaktProduct) : List PrisjaktProduct :=
  dedupeGo [] list

/-! ## JSON values (result of `JSON.parse` on a JSON-LD block)

Mutual inductives are used so that the tree recursion of
`collectProductsFromLdObject` is structural.  `.null` models both JSON `null`
and JS `undefined` (absent property): the code only ever distinguishes them
through truthiness, where they agree.  `JSON.parse` produces objects with
distinct keys, so field lookup takes the first match. -/

mutual
inductive Json where
  | null : Json
  | bool : Bool → Json
  | num : ℚ → Json
  | str : String → Json
  | arr : JsonList → Json
  | obj : JsonFields → Json
inductive JsonList where
  | nil : JsonList
  | cons : Json → JsonList → JsonList
inductive JsonFields where
  | nil : JsonFields
  | cons : String → Json → JsonFields → JsonFields
end

def jget : JsonFields → String → Json
  | .nil, _ => .null
  | .cons k v rest, key => if k = key then v else jget rest key

/-- Property access `obj[k]` (yields `undefined` on non-objects; the code
only dereferences values it has guarded with `typeof obj === 'object'` or
optional chaining, so modelling the remaining cases as `undefined` is
faithful on every reachable path). -/
def Json.get (j : Json) (k : String) : Json :=
  match j with
  | .obj fs => jget fs k
  | _ => .null

def jlToList : JsonList → List Json
  | .nil => []
  | .cons j rest => j :: jlToList rest

/-- JS truthiness. -/
def jsTruthy : Json → Bool
  | .null => false
  | .bool b => b
  | .num q => q ≠ 0
  | .str s => s ≠ ""
  | .arr _ => true
  | .obj _ => true

/-- Decimal rendering of a JS number.  All numbers occurring in the claims
are integers; non-integer rationals get a best-effort rendering (the exact
JS float formatting is not needed by any theorem). -/
def jsNumToString (q : ℚ) : String :=
  if q.den = 1 then toString q.num
  else toString q.num ++ "/" ++ toString q.den

mutual
/-- JS `String(v)` coercion (`'' + v`). -/
def jsToString : Json → String
  | .null => "null"
  | .bool b => if b then "true" else "false"
  | .num q => jsNumToString q
  | .str s => s
  | .arr xs => jsToStringArr xs
  | .obj _ => "[object Object]"
/-- `Array.prototype.toString`: elements joined by `","`; `null`/`undefined`
elements render as the empty string. -/
def jsToStringArr : JsonList → String
  | .nil => ""
  | .cons j .nil => (match j with | .null => "" | x => jsToString x)
  | .cons j rest => (match j with | .null => "" | x => jsToString x) ++ "," ++ jsToStringArr rest
end

/-- `a || b` on JS values. -/
def jsOrJ (a b : Json) : Json :=
  if jsTruthy a then a else b

/-- `v || d` landing in a string position: coerce the value if truthy,
else the (string) default. -/
def jsOrDefault (j : Json) (d : String) : String :=
  if jsTruthy j then jsToString j else d

/-- `obj['@type'] === 'Product' || (Array.isArray(obj['@type']) && obj['@type'].includes('Product'))`. -/
def typeIsProduct (j : Json) : Bool :=
  match j.get "@type" with
  | .str s => s = "Product"
  | .arr xs => (jlToList xs).any (fun t => match t with | .str s => s = "Product" | _ => false)
  | _ => false

/-- `normalizeOffers` from the source (falsy → `[]`). -/
def normalizeOffers (offers : Json) : List Json :=
  if !jsTruthy offers then []
  else match offers with
    | .arr xs => jlToList xs
    | j => [j]

/-- `offer.availability` handed to `toAvailability` (string | undefined in
the source's types; other truthy values are coerced). -/
def availabilityArg (j : Json) : Option String :=
  match j with
  | .str s => some s
  | .null => none
  | x => if jsTruthy x then some (jsToString x) else none

/-- `Array.isArray(obj.image) ? obj.image[0] : obj.image`, landing in the
optional `imageUrl` field. -/
def imageOf (obj : Json) : Option String :=
  match obj.get "image" with
  | .arr .nil => none
  | .arr (.cons j _) => (match j with | .null => none | x => some (jsToString x))
  | .null => none
  | x => some (jsToString x)

/-- The `(offer.url || offer.seller?.name || '')` discriminator used in the
offer id. -/
def ldOfferDisc (offer : Json) : String :=
  jsOrDefault (jsOrJ (offer.get "url") ((offer.get "seller").get "name")) ""

/-- The `(obj.sku || obj.url || obj.name)` part of the offer id (`obj.name`
is truthy whenever this is evaluated). -/
def ldIdBase (obj : Json) : String :=
  jsToString (jsOrJ (obj.get "sku") (jsOrJ (obj.get "url") (obj.get "name")))

/-- Body of the `for (const offer of offers)` loop in
`collectProductsFromLdObject`: `none` models `continue`. -/
def offerFromLd (obj offer : Json) : Option PrisjaktProduct :=
  let numericPrice : Option ℚ :=
    match offer.get "price" with
    | .num q => some q
    | other => jsNumber (String.mk (replFirstComma (keepNumChars (jsToString other)).data))
  match numericPrice with
  | none => none
  | some q =>
    if q ≤ 0 then none
    else some {
      id := ldIdBase obj ++ "::" ++ ldOfferDisc offer
      name := jsToString (obj.get "name")
      price := q
      currency := jsOrDefault (offer.get "priceCurrency") "SEK"
      store := jsOrDefault ((offer.get "seller").get "name") "Unknown"
      storeUrl := jsOrDefault (jsOrJ (offer.get "url") (obj.get "url")) ""
      availability := toAvailability (availabilityArg (offer.get "availability"))
      imageUrl := imageOf obj }

/-- The Product block of `collectProductsFromLdObject`: the offers this node
itself pushes (before recursing into its fields). -/
def productOffers (j : Json) : List PrisjaktProduct :=
  if typeIsProduct j && jsTruthy (j.get "name") then
    (normalizeOffers (j.get "offers")).filterMap (offerFromLd j)
  else []

mutual
/-- `collectProductsFromLdObject` (the mutable `out` array becomes the
returned list; the node's own offers precede those found by recursion, in
key order). -/
def collectLd : Json → List PrisjaktProduct
  | .obj fs => productOffers (.obj fs) ++ collectLdFields fs
  | .arr xs => collectLdList xs
  | _ => []
def collectLdList : JsonList → List PrisjaktProduct
  | .nil => []
  | .cons j rest => collectLd j ++ collectLdList rest
def collectLdFields : JsonFields → List PrisjaktProduct
  | .nil => []
  | .cons _ v rest => collectLd v ++ collectLdFields rest
end

/-- Is the value of a `"name"` field a string or absent?  (The TypeScript
contract: `name` / `seller.name` are strings when present.) -/
def strOrNull : Json → Bool
  | .str _ => true
  | .null => true
  | _ => false

mutual
/-- Well-typedness of a JSON-LD graph: every object node's `"name"` field,
when present, is a string.  This is the hypothesis under which the spec's
"name/store non-empty" invariant is provable (a graph whose `name` is, say,
an empty array would be coerced to an empty string). -/
def ldTyped : Json → Bool
  | .obj fs => strOrNull (jget fs "name") && ldTypedFields fs
  | .arr xs => ldTypedList xs
  | _ => true
def ldTypedList : JsonList → Bool
  | .nil => true
  | .cons j rest => ldTyped j && ldTypedList rest
def ldTypedFields : JsonFields → Bool
  | .nil => true
  | .cons _ v rest => ldTyped v && ldTypedFields rest
end

/-! ## The page model

A `Page` holds, for one HTML document, exactly what the source's regexes
extract from it: each field is the capture (or capture list) of one regex of
`part_001`.  Fields are `Option`-valued where the corresponding `match` can
fail. -/

/-- One `<a href="https://www.prisjakt.nu/go-to-shop/...">...</a>` block of a
product page (regex at line 258) together with the captures the per-offer
regexes take from its inner HTML. -/
structure GoShopAnchor where
  /-- Capture 1: the go-to-shop href. -/
  storeUrl : String
  /-- Group 1 of the `StoreInfoTitle` span match, if any. -/
  storeInfoTitle : Option String
  /-- Group 1 of the `<picture ... alt="...">` match, if any. -/
  pictureAlt : Option String
  /-- Group 1 of the `data-test="PriceLabel"` match (digits/spaces/`&nbsp;`). -/
  priceLabelRaw : Option String
  /-- `/iconstockinstock/i.test(offerHtml)`. -/
  hasInStockIcon : Bool
  /-- `/iconstockincoming/i.test(offerHtml)`. -/
  hasIncomingIcon : Bool
  /-- `/iconstockoutofstock/i.test(offerHtml)` (computed but unused by the code). -/
  hasOutOfStockIcon : Bool
deriving DecidableEq, Repr

/-- One `<a href="...">...</a>` block scanned by `extractProductsNaively`
(regex at line 182) with the captures taken from it. -/
structure SearchAnchor where
  /-- Capture 1: the raw href (before `decodeHtml`). -/
  href : String
  /-- Group 1 of the `<h3>` match inside the block, if any. -/
  h3raw : Option String
  /-- Group 1 of the `<h2>` match inside the block, if any. -/
  h2raw : Option String
  /-- Trimmed full match of the price-with-currency regex, if any. -/
  priceRaw : Option String
deriving DecidableEq, Repr

structure Page where
  /-- `productName` anchor match (line 216): capture 1 (href) and capture 2
  (title block). -/
  primaryCardLink : Option (String × String)
  /-- Group 1 of the `text-m font-heaviest` price match (line 224). -/
  primaryPriceRaw : Option String
  /-- Group 1 of the `hos<span class="font-heaviest">` store match (line 229). -/
  primaryStoreRaw : Option String
  /-- The `application/ld+json` script bodies, in document order; `none`
  models a block on which `JSON.parse` throws. -/
  ldBlocks : List (Option Json)
  /-- All anchor blocks, for the naive extractor. -/
  anchors : List SearchAnchor
  /-- Group 1 of the `<h1>` match, if any. -/
  h1raw : Option String
  /-- All go-to-shop anchor blocks, for the product-page extractor. -/
  goShops : List GoShopAnchor
  /-- `/Ingen butik har produkten i lager/i.test(html)`. -/
  noStockMarker : Bool
  /-- Capture 1 of the first `/produkt.php?p=\d+` href on the page (line 41). -/
  firstProductLink : Option String
  /-- Trimmed full match of the page-wide price regex (line 78), if any. -/
  bodyPriceRaw : Option String

/-! ## Structured-data extractor -/

/-- Offers contributed by one script block: parse failure contributes
nothing; `Array.isArray(data) ? data : [data]` then collect each item.
A `TypeError` thrown mid-walk (possible only on graphs that break the
JSON-LD typing, e.g. a `null` inside `offers`) is caught by the enclosing
`try`; the model walks past such nodes instead, which coincides with the
code on every node that contributes offers. -/
def blockProducts : Option Json → List PrisjaktProduct
  | none => []
  | some (.arr xs) => ((jlToList xs).map collectLd).flatten
  | some j => collectLd j

def extractProductsFromJsonLd (p : Page) : List PrisjaktProduct :=
  dedupeProducts ((p.ldBlocks.map blockProducts).flatten)

/-! ## Primary-card extractor -/

/-- `/(prisjakt|butik|annons|kr)/i.test(store)`. -/
def searchStoreNoise (store : String) : Bool :=
  let s := jsLowerStr store
  strContains s "prisjakt" || strContains s "butik" || strContains s "annons" ||
    strContains s "kr"

def extractPrimarySearchItems (p : Page) : List PrisjaktProduct :=
  match p.primaryCardLink with
  | none => []
  | some (productLink, titleBlock) =>
    let title := squashWs (stripTags titleBlock)
    match p.primaryPriceRaw with
    | none => []
    | some praw =>
      let price := parsePriceNbsp praw
      match p.primaryStoreRaw with
      | none => []
      | some sraw =>
        let store := squashWs (stripTags sraw)
        if searchStoreNoise store then []
        else match price with
          | none => []
          | some q =>
            if 0 < q ∧ store ≠ "" ∧ title ≠ "" then
              [{ id := productLink
                 name := title
                 price := q
                 currency := "SEK"
                 store := store
                 storeUrl := "https://www.prisjakt.nu" ++ productLink
                 availability := .in_stock }]
            else []

/-! ## Naive pattern extractor -/

/-- The candidate name of an anchor block: the `<h3>` heading, or (when that
strips to the empty string, i.e. is falsy) the `<h2>` heading. -/
def anchorName (a : SearchAnchor) : String :=
  let n3 := stripTags (trimStr (a.h3raw.getD ""))
  if n3 ≠ "" then n3 else stripTags (trimStr (a.h2raw.getD ""))

/-- Loop body of `extractProductsNaively` (`none` = `continue`). -/
def anchorOffer (a : SearchAnchor) : Option PrisjaktProduct :=
  let href := decodeHtml a.href
  let name := anchorName a
  if name = "" then none
  else
    match a.priceRaw with
    | none => none
    | some praw =>
      if praw = "" then none
      else match parsePricePlain praw with
        | none => none
        | some q =>
          if q ≤ 0 then none
          else some {
            id := if href ≠ "" then href else name
            name := name
            price := q
            currency := "SEK"
            store := "Prisjakt"
            storeUrl := if startsWithStr href "http" then href else "https://www.prisjakt.nu" ++ href
            availability := .in_stock }

def extractProductsNaively (p : Page) : List PrisjaktProduct :=
  (dedupeProducts (p.anchors.filterMap anchorOffer)).take 10

/-! ## Product-page offer extractor -/

/-- `\s+\d` matcher: at least one whitespace character followed (after more
whitespace) by a digit, at the head of the list. -/
def wsDigitScan : List Char → Bool
  | [] => false
  | c :: rest => if c.isDigit then true else if c.isWhitespace then wsDigitScan rest else false

def visaTail : List Char → Bool
  | 'i' :: 's' :: 'a' :: c :: rest => c.isWhitespace && wsDigitScan (c :: rest)
  | _ => false

/-- `/visa\s+\d+/` tested anywhere in the (lower-cased) string. -/
def hasVisaNum : List Char → Bool
  | [] => false
  | c :: rest => (c = 'v' && visaTail rest) || hasVisaNum rest

/-- `/(prisjakt|gå till butik|butik|rank|omdöme|produkt|kr|annons|visa\s+\d+)/i.test(store)`. -/
def goShopNoise (store : String) : Bool :=
  let s := jsLowerStr store
  strContains s "prisjakt" || strContains s "gå till butik" || strContains s "butik" ||
    strContains s "rank" || strContains s "omdöme" || strContains s "produkt" ||
    strContains s "kr" || strContains s "annons" || hasVisaNum s.data

/-- The `<h1>` product name: `stripTags((html.match(/<h1.../i)?.[1] || '').trim())`
(shared verbatim by the product-page extractor and the last-resort path). -/
def h1Name (p : Page) : String :=
  stripTags (trimStr (p.h1raw.getD ""))

/-- Per-offer availability from the stock icon classes (the out-of-stock
icon is tested by the code but never used). -/
def goShopAvail (g : GoShopAnchor) : AvailabilityStatus :=
  if g.hasInStockIcon then .in_stock
  else if g.hasIncomingIcon then .incoming
  else .not_available

/-- The store label of a go-to-shop anchor: the `StoreInfoTitle` span, else
(when falsy) the picture `alt`, then tag-stripped and whitespace-squashed. -/
def goShopStore (g : GoShopAnchor) : String :=
  let store0 := trimStr (g.storeInfoTitle.getD "")
  let store1 := if store0 ≠ "" then store0 else trimStr (g.pictureAlt.getD "")
  squashWs (stripTags store1)

/-- Loop body of `extractOffersFromProductPageNaively` (`none` = `continue`). -/
def goShopOffer (name pageUrl : String) (g : GoShopAnchor) : Option PrisjaktProduct :=
  let store := goShopStore g
  if store = "" ∨ goShopNoise store then none
  else
    match g.priceLabelRaw with
    | none => none
    | some praw =>
      match parsePriceNbsp praw with
      | none => none
      | some q =>
        if q ≤ 0 then none
        else some {
          id := pageUrl ++ "::" ++ store
          name := name
          price := q
          currency := "SEK"
          store := store
          storeUrl := g.storeUrl
          availability := goShopAvail g }

/-- The offers pushed to `out` before the by-store dedupe (empty when the
page has no usable `<h1>`, matching the early return). -/
def collectGoShopOffers (p : Page) (pageUrl : String) : List PrisjaktProduct :=
  if h1Name p = "" then []
  else p.goShops.filterMap (goShopOffer (h1Name p) pageUrl)

/-- `storeKey` = `p.store.toLowerCase()`. -/
def storeKey (p : PrisjaktProduct) : String :=
  jsLowerStr p.store

/-- `Map.get`. -/
def mapLookup : List (String × PrisjaktProduct) → String → Option PrisjaktProduct
  | [], _ => none
  | (k, v) :: rest, key => if k = key then some v else mapLookup rest key

/-- `Map.set`: update in place (keeping insertion position), else append. -/
def mapSet : List (String × PrisjaktProduct) → String → PrisjaktProduct →
    List (String × PrisjaktProduct)
  | [], k, v => [(k, v)]
  | (k', v') :: rest, k, v =>
    if k' = k then (k, v) :: rest else (k', v') :: mapSet rest k v

/-- One iteration of the by-store dedupe loop:
`if (!prev || p.price < prev.price) byStore.set(key, p)`. -/
def insertByStore (m : List (String × PrisjaktProduct)) (p : PrisjaktProduct) :
    List (String × PrisjaktProduct) :=
  match mapLookup m (storeKey p) with
  | none => mapSet m (storeKey p) p
  | some prev => if p.price < prev.price then mapSet m (storeKey p) p else m

def byStoreFold (l : List PrisjaktProduct) : List (String × PrisjaktProduct) :=
  l.foldl insertByStore []

/-- Force `not_available` (the page-wide no-stock override mutates each
offer in place). -/
def forceNotAvailable (o : PrisjaktProduct) : PrisjaktProduct :=
  { o with availability := .not_available }

def extractOffersFromProductPageNaively (p : Page) (pageUrl : String) :
    List PrisjaktProduct :=
  let offers := (byStoreFold (collectGoShopOffers p pageUrl)).map Prod.snd
  if p.noStockMarker then offers.map forceNotAvailable else offers

/-! ## URLs and fetching -/

def hexUpChar (n : ℕ) : Char :=
  if n < 10 then Char.ofNat (48 + n) else Char.ofNat (55 + n)

/-- UTF-8 bytes of a character. -/
def utf8Bytes (c : Char) : List ℕ :=
  let n := c.toNat
  if n < 0x80 then [n]
  else if n < 0x800 then [0xC0 + n / 0x40, 0x80 + n % 0x40]
  else if n < 0x10000 then [0xE0 + n / 0x1000, 0x80 + n / 0x40 % 0x40, 0x80 + n % 0x40]
  else [0xF0 + n / 0x40000, 0x80 + n / 0x1000 % 0x40, 0x80 + n / 0x40 % 0x40, 0x80 + n % 0x40]

def uriUnreserved (c : Char) : Bool :=
  c.isAlphanum || c = '-' || c = '_' || c = '.' || c = '!' ||
    c = '~' || c = '*' || c = Char.ofNat 39 || c = '(' || c = ')'

def encodeURIComponent (s : String) : String :=
  String.mk ((s.data.map (fun c =>
    if uriUnreserved c then [c]
    else ((utf8Bytes c).map (fun b => ['%', hexUpChar (b / 16), hexUpChar (b % 16)])).flatten)).flatten)

def searchUrl (query : String) : String :=
  "https://www.prisjakt.nu/search?query=" ++ encodeURIComponent query

/-- URL built by `scrapePrisjaktProduct` from its argument. -/
def productUrlOf (urlOrId : String) : String :=
  if startsWithStr urlOrId "http" then urlOrId
  else "https://www.prisjakt.nu/produkt.php?p=" ++
    encodeURIComponent (String.mk (urlOrId.data.filter Char.isDigit))

/-- Outcome of `fetch` + `res.text()`: either an exception (network error or
a body that fails to read — both land in the entry point's `catch`), or a
response with its `ok` flag and (the model of) its HTML body. -/
inductive FetchResult where
  | thrown
  | resp (ok : Bool) (page : Page)

/-! ## Orchestrators -/

def scrapePrisjaktProduct (env : String → FetchResult) (urlOrId : String) :
    List PrisjaktProduct :=
  let url := productUrlOf urlOrId
  match env url with
  | .thrown => []
  | .resp ok page =>
    if !ok then []
    else
      let products := filterPrisjaktStore (extractProductsFromJsonLd page)
      if 0 < products.length then products
      else
        let offers := filterPrisjaktStore (extractOffersFromProductPageNaively page url)
        if 0 < offers.length then offers
        else
          let name := h1Name page
          let price : Option ℚ :=
            match page.bodyPriceRaw with
            | none => none
            | some praw => if praw = "" then none else parsePricePlain praw
          match price with
          | none => []
          | some q =>
            if name ≠ "" ∧ 0 < q then
              [{ id := url
                 name := name
                 price := q
                 currency := "SEK"
                 store := "Prisjakt"
                 storeUrl := url
                 availability := .in_stock }]
            else []

def scrapePrisjaktSearch (env : String → FetchResult) (query : String) :
    List PrisjaktProduct :=
  match env (searchUrl query) with
  | .thrown => []
  | .resp ok page =>
    if !ok then []
    else
      let focused := filterPrisjaktStore (extractPrimarySearchItems page)
      if 0 < focused.length then focused
      else
        let productsFromJsonLd := filterPrisjaktStore (extractProductsFromJsonLd page)
        if 0 < productsFromJsonLd.length then productsFromJsonLd
        else
          let fallback := filterPrisjaktStore (extractProductsNaively page)
          if 0 < fallback.length then fallback
          else
            match page.firstProductLink with
            | some productLink =>
              filterPrisjaktStore
                (scrapePrisjaktProduct env ("https://www.prisjakt.nu" ++ productLink))
            | none => []

/-- `scrapePrisjaktSearch` with its naive-pattern stage removed (used to
state that the naive stage can never win). -/
def scrapePrisjaktSearchNoNaive (env : String → FetchResult) (query : String) :
    List PrisjaktProduct :=
  match env (searchUrl query) with
  | .thrown => []
  | .resp ok page =>
    if !ok then []
    else
      let focused := filterPrisjaktStore (extractPrimarySearchItems page)
      if 0 < focused.length then focused
      else
        let productsFromJsonLd := filterPrisjaktStore (extractProductsFromJsonLd page)
        if 0 < productsFromJsonLd.length then productsFromJsonLd
        else
          match page.firstProductLink with
          | some productLink =>
            filterPrisjaktStore
              (scrapePrisjaktProduct env ("https://www.prisjakt.nu" ++ productLink))
          | none => []

/-! ## Specification helpers for the by-store dedupe

`bestFrom k a l` is the price-minimum selection the map loop computes for
one key; it is only used to state and prove properties of `byStoreFold`. -/

/-- The offer the loop keeps out of a previous winner `q` and a newcomer `p`
(`p.price < q.price` keeps the newcomer, so ties keep the earlier offer). -/
def pickBetter (q p : PrisjaktProduct) : PrisjaktProduct :=
  if p.price < q.price then p else q

def bestStep (k : String) (a : Option PrisjaktProduct) (p : PrisjaktProduct) :
    Option PrisjaktProduct :=
  if storeKey p = k then
    match a with
    | none => some p
    | some q => some (pickBetter q p)
  else a

def bestFrom (k : String) (a : Option PrisjaktProduct) (l : List PrisjaktProduct) :
    Option PrisjaktProduct :=
  l.foldl (bestStep k) a

/-- Every entry of the store map is keyed by its value's lower-cased store. -/
def entriesOk (m : List (String × PrisjaktProduct)) : Prop :=
  ∀ e ∈ m, storeKey e.2 = e.1

/-! ## Predicates used by the claims -/

/-- The spec's per-offer invariant (minus the store/brand clause): positive
price — finiteness is inherent in `ℚ`, `NaN` results having been modelled as
`none` — and non-empty name and store. -/
def GoodOffer (o : PrisjaktProduct) : Prop :=
  0 < o.price ∧ o.name ≠ "" ∧ o.store ≠ ""

/-- Every parsed JSON-LD block of the page is a well-typed graph
(`name` fields are strings when present). -/
def pageLdTyped (p : Page) : Bool :=
  p.ldBlocks.all (fun b => match b with | none => true | some j => ldTyped j)

def fetchTyped : FetchResult → Bool
  | .thrown => true
  | .resp _ page => pageLdTyped page

/-- Every page the network can serve carries well-typed JSON-LD. -/
def EnvTyped (env : String → FetchResult) : Prop :=
  ∀ u, fetchTyped (env u) = true

/-! ## Concrete inputs for witnesses and counterexamples -/

def pageEmpty : Page :=
  { primaryCardLink := none, primaryPriceRaw := none, primaryStoreRaw := none,
    ldBlocks := [], anchors := [], h1raw := none, goShops := [],
    noStockMarker := false, firstProductLink := none, bodyPriceRaw := none }

/-- A product page with only an `<h1>` and a page price: drives
`scrapePrisjaktProduct` into its last-resort single-offer path.
(Realizable, e.g. by the HTML `<h1>RAM Kit</h1>100 kr`.) -/
def pageC1 : Page :=
  { pageEmpty with h1raw := some "RAM Kit", bodyPriceRaw := some "100 kr" }

def envC1 : String → FetchResult := fun _ => .resp true pageC1

/-- A search page whose primary result card is present and clean. -/
def pageW1 : Page :=
  { pageEmpty with
    primaryCardLink := some ("/produkt.php?p=55", "Corsair Vengeance"),
    primaryPriceRaw := some "2 095",
    primaryStoreRaw := some "MJ Multimedia" }

def envW1 : String → FetchResult := fun _ => .resp true pageW1

def envThrown : String → FetchResult := fun _ => .thrown

/-- Product-page go-to-shop anchor, store Webhallen at 1200 kr, in stock. -/
def gWeb1 : GoShopAnchor :=
  { storeUrl := "https://www.prisjakt.nu/go-to-shop/1",
    storeInfoTitle := some "Webhallen", pictureAlt := none,
    priceLabelRaw := some "1 200",
    hasInStockIcon := true, hasIncomingIcon := false, hasOutOfStockIcon := false }

/-- Same store, cheaper (1100 kr), not in stock. -/
def gWeb2 : GoShopAnchor :=
  { gWeb1 with
    storeUrl := "https://www.prisjakt.nu/go-to-shop/2",
    priceLabelRaw := some "1 100", hasInStockIcon := false }

/-- Product page with two offers for the same store at different prices. -/
def pageC5 : Page :=
  { pageEmpty with h1raw := some "DDR5 Kit", goShops := [gWeb1, gWeb2] }

/-- Product page with an in-stock offer but the page-wide no-stock marker. -/
def pageC6 : Page :=
  { pageEmpty with h1raw := some "DDR5 Kit", goShops := [gWeb1], noStockMarker := true }

def offerA : PrisjaktProduct :=
  { id := "a", name := "X", price := 10, currency := "SEK", store := "S",
    storeUrl := "u", availability := .in_stock }

/-- Same dedupe key as `offerA`, different id and price. -/
def offerB : PrisjaktProduct :=
  { offerA with id := "b", price := 12 }

def listC7 : List PrisjaktProduct := [offerA, offerB]

def anchorGood : SearchAnchor :=
  { href := "/produkt.php?p=9", h3raw := some "<span>Kingston Fury</span>",
    h2raw := none, priceRaw := some "899 kr" }

/-- No heading inside the block: must be skipped. -/
def anchorBad : SearchAnchor :=
  { href := "/x", h3raw := none, h2raw := none, priceRaw := some "899 kr" }

def pageC8 : Page :=
  { pageEmpty with anchors := [anchorGood, anchorBad] }

/-- The offer `anchorGood` yields in the naive extractor. -/
def offerC8 : PrisjaktProduct :=
  { id := "/produkt.php?p=9", name := "Kingston Fury", price := 899,
    currency := "SEK", store := "Prisjakt",
    storeUrl := "https://www.prisjakt.nu/produkt.php?p=9",
    availability := .in_stock }

/-- JSON-LD offer `{"price": 10}` (no url, no seller). -/
def offerJ1 : Json := .obj (.cons "price" (.num 10) .nil)

/-- JSON-LD offer `{"price": 20}` (no url, no seller). -/
def offerJ2 : Json := .obj (.cons "price" (.num 20) .nil)

/-- A Product node whose two offers lack any url/seller discriminator. -/
def objC9 : Json :=
  .obj (.cons "@type" (.str "Product") (.cons "name" (.str "N")
    (.cons "offers" (.arr (.cons offerJ1 (.cons offerJ2 .nil))) .nil)))

/-- JSON-LD offer `{"price": 10, "url": "https://a"}`. -/
def offerK1 : Json :=
  .obj (.cons "price" (.num 10) (.cons "url" (.str "https://a") .nil))

/-- JSON-LD offer `{"price": 20, "url": "https://b"}`. -/
def offerK2 : Json :=
  .obj (.cons "price" (.num 20) (.cons "url" (.str "https://b") .nil))

/-- A Product node whose two offers carry distinct urls. -/
def objW9 : Json :=
  .obj (.cons "@type" (.str "Product") (.cons "name" (.str "N")
    (.cons "offers" (.arr (.cons offerK1 (.cons offerK2 .nil))) .nil)))

/-- The offer produced from `offerK1` in `objW9`. -/
def prodK1 : PrisjaktProduct :=
  { id := "N::https://a", name := "N", price := 10, currency := "SEK",
    store := "Unknown", storeUrl := "https://a", availability := .not_available }

/-- The offer produced from `offerK2` in `objW9`. -/
def prodK2 : PrisjaktProduct :=
  { prodK1 with id := "N::https://b", price := 20, storeUrl := "https://b" }

/-! ## Lemmas about `dedupeProducts` -/

theorem dedupeGo_sublist (seen : List String) (l : List PrisjaktProduct) :
    List.Sublist (dedupeGo seen l) l := by
  induction l generalizing seen with
  | nil => simp [dedupeGo]
  | cons p rest ih =>
    simp only [dedupeGo]
    split
    · exact (ih seen).cons p
    · exact (ih _).cons₂ p

theorem mem_dedupeGo {o : PrisjaktProduct} :
    ∀ {seen l}, o ∈ dedupeGo seen l → o ∈ l ∧ dedupeKey o ∉ seen := by
  intro seen l
  induction l generalizing seen with
  | nil => simp [dedupeGo]
  | cons p rest ih =>
    simp only [dedupeGo]
    split
    next hin =>
      intro h
      exact ⟨List.mem_cons_of_mem _ (ih h).1, (ih h).2⟩
    next hnin =>
      intro h
      rcases List.mem_cons.mp h with rfl | h2
      · exact ⟨List.mem_cons_self _ _, hnin⟩
      · refine ⟨List.mem_cons_of_mem _ (ih h2).1, fun hs => (ih h2).2 ?_⟩
        exact List.mem_cons_of_mem _ hs

theorem dedupeGo_keys_nodup (seen : List String) (l : List PrisjaktProduct) :
    ((dedupeGo seen l).map dedupeKey).Nodup := by
  induction l generalizing seen with
  | nil => simp [dedupeGo]
  | cons p rest ih =>
    simp only [dedupeGo]
    split
    · exact ih seen
    · simp only [List.map_cons, List.nodup_cons]
      refine ⟨fun hmem => ?_, ih _⟩
      rcases List.mem_map.mp hmem with ⟨o, ho, hk⟩
      exact (mem_dedupeGo ho).2 (by rw [hk]; exact List.mem_cons_self _ _)

theorem dedupeGo_eq_self :
    ∀ {seen} {l : List PrisjaktProduct}, (l.map dedupeKey).Nodup →
      (∀ p ∈ l, dedupeKey p ∉ seen) → dedupeGo seen l = l := by
  intro seen l
  induction l generalizing seen with
  | nil => intro _ _; simp [dedupeGo]
  | cons p rest ih =>
    intro hnd hseen
    simp only [List.map_cons, List.nodup_cons] at hnd
    simp only [dedupeGo]
    rw [if_neg (hseen p (List.mem_cons_self _ _))]
    congr 1
    refine ih hnd.2 ?_
    intro q hq hmem
    rcases List.mem_cons.mp hmem with he | hs
    · exact hnd.1 (he ▸ List.mem_map_of_mem dedupeKey hq)
    · exact hseen q (List.mem_cons_of_mem _ hq) hs

theorem dedupeGo_find? {o : PrisjaktProduct} :
    ∀ {seen l}, o ∈ dedupeGo seen l →
      l.find? (fun x => dedupeKey x == dedupeKey o) = some o := by
  intro seen l
  induction l generalizing seen with
  | nil => simp [dedupeGo]
  | cons p rest ih =>
    simp only [dedupeGo]
    split
    next hin =>
      intro h
      have hno := (mem_dedupeGo h).2
      have hne : ¬(dedupeKey p == dedupeKey o) = true := by
        simp only [beq_iff_eq]
        intro he; exact hno (he ▸ hin)
      rw [@List.find?_cons_of_neg _ (fun x => dedupeKey x == dedupeKey o) p rest hne]
      exact ih h
    next hnin =>
      intro h
      rcases List.mem_cons.mp h with rfl | h2
      · exact @List.find?_cons_of_pos _ (fun x => dedupeKey x == dedupeKey o) o rest (by simp)
      · have hno := (mem_dedupeGo h2).2
        have hne : ¬(dedupeKey p == dedupeKey o) = true := by
          simp only [beq_iff_eq]
          intro he
          exact hno (by rw [← he]; exact List.mem_cons_self _ _)
        rw [@List.find?_cons_of_neg _ (fun x => dedupeKey x == dedupeKey o) p rest hne]
        exact ih h2

theorem dedupeGo_covers :
    ∀ {seen} {l : List PrisjaktProduct} (p), p ∈ l →
      dedupeKey p ∈ seen ∨ ∃ q ∈ dedupeGo seen l, dedupeKey q = dedupeKey p := by
  intro seen l
  induction l generalizing seen with
  | nil => intro p hp; cases hp
  | cons a rest ih =>
    intro p hp
    simp only [dedupeGo]
    rcases List.mem_cons.mp hp with rfl | h2
    · split
      next hin => exact Or.inl hin
      next hnin =>
        exact Or.inr ⟨p, List.mem_cons_self _ _, rfl⟩
    · split
      next hin =>
        rcases ih p h2 with h | ⟨q, hq, he⟩
        · exact Or.inl h
        · exact Or.inr ⟨q, hq, he⟩
      next hnin =>
        rcases @ih (dedupeKey a :: seen) p h2 with h | ⟨q, hq, he⟩
        · rcases List.mem_cons.mp h with he | hs
          · exact Or.inr ⟨a, List.mem_cons_self _ _, he.symm⟩
          · exact Or.inl hs
        · exact Or.inr ⟨q, List.mem_cons_of_mem _ hq, he⟩

theorem mem_dedupeProducts {o : PrisjaktProduct} {l : List PrisjaktProduct}
    (h : o ∈ dedupeProducts l) : o ∈ l :=
  (mem_dedupeGo h).1

/-- C7: `dedupeProducts` is idempotent, never lengthens its input, returns a
sublist (so first occurrences keep their relative position), keeps for every
member the first input element with its identity key, and covers every key of
the input. -/
theorem c7_dedupe_props (l : List PrisjaktProduct) :
    dedupeProducts (dedupeProducts l) = dedupeProducts l ∧
    (dedupeProducts l).length ≤ l.length ∧
    List.Sublist (dedupeProducts l) l ∧
    (∀ p ∈ dedupeProducts l, l.find? (fun x => dedupeKey x == dedupeKey p) = some p) ∧
    (∀ p ∈ l, ∃ q ∈ dedupeProducts l, dedupeKey q = dedupeKey p) := by
  refine ⟨?_, ?_, ?_, ?_, ?_⟩
  · exact dedupeGo_eq_self (dedupeGo_keys_nodup [] l) (by simp)
  · exact (dedupeGo_sublist [] l).length_le
  · exact dedupeGo_sublist [] l
  · intro p hp
    exact dedupeGo_find? hp
  · intro p hp
    rcases @dedupeGo_covers [] l p hp with h | h
    · cases h
    · exact h

/-- Witness for C7: in a list with two offers sharing the identity key, the
deduplicated list contains an offer with that key (the first one). -/
theorem c7_witness :
    offerB ∈ listC7 ∧ ∃ q ∈ dedupeProducts listC7, dedupeKey q = dedupeKey offerB :=
  ⟨by decide, (c7_dedupe_props listC7).2.2.2.2 offerB (by decide)⟩

/-- C4 (amended): `toAvailability` is total — every input, including `none`
(undefined) and the empty string, lands in the three-value enum — and the
canonical value `in_stock` round-trips.  The other two canonical values do
not round-trip (see the counterexample). -/
theorem c4_toAvailability_total :
    (∀ s : Option String,
      toAvailability s = .in_stock ∨ toAvailability s = .incoming ∨
        toAvailability s = .not_available) ∧
    toAvailability (some "in_stock") = .in_stock := by
  constructor
  · intro s
    cases h : toAvailability s with
    | in_stock => exact Or.inl rfl
    | incoming => exact Or.inr (Or.inl rfl)
    | not_available => exact Or.inr (Or.inr rfl)
  · decide

/-- C4 counterexample: round-trip stability fails on two of the three
canonical values: `"incoming"` contains none of the matched tokens and falls
through to `not_available`, and `"not_available"` contains the substring
`"available"` and maps to `in_stock`. -/
theorem c4_counterexample :
    toAvailability (some "incoming") = .not_available ∧
    toAvailability (some "not_available") = .in_stock := by
  decide

/-! ## Lemmas about the by-store dedupe -/

theorem mapLookup_mapSet (m : List (String × PrisjaktProduct)) (k : String)
    (v : PrisjaktProduct) (k' : String) :
    mapLookup (mapSet m k v) k' = if k = k' then some v else mapLookup m k' := by
  induction m with
  | nil => simp [mapSet, mapLookup]
  | cons e rest ih =>
    obtain ⟨a, b⟩ := e
    simp only [mapSet]
    by_cases hak : a = k
    · subst hak
      simp only [if_pos rfl, mapLookup]
      by_cases hk' : a = k' <;> simp [hk']
    · simp only [if_neg hak, mapLookup]
      by_cases hk' : a = k'
      · subst hk'
        have : ¬ k = a := fun h => hak h.symm
        simp [this]
      · simp [hk', ih]

theorem mem_mapSet {e : String × PrisjaktProduct}
    {m : List (String × PrisjaktProduct)} {k : String} {v : PrisjaktProduct}
    (h : e ∈ mapSet m k v) : e = (k, v) ∨ e ∈ m := by
  induction m with
  | nil => simpa [mapSet] using h
  | cons e' rest ih =>
    obtain ⟨a, b⟩ := e'
    simp only [mapSet] at h
    split at h
    · rcases List.mem_cons.mp h with rfl | hm
      · exact Or.inl rfl
      · exact Or.inr (List.mem_cons_of_mem _ hm)
    · rcases List.mem_cons.mp h with rfl | hm
      · exact Or.inr (List.mem_cons_self _ _)
      · rcases ih hm with h1 | h1
        · exact Or.inl h1
        · exact Or.inr (List.mem_cons_of_mem _ h1)

theorem mapSet_fst (m : List (String × PrisjaktProduct)) (k : String)
    (v : PrisjaktProduct) :
    (mapSet m k v).map Prod.fst =
      if k ∈ m.map Prod.fst then m.map Prod.fst else m.map Prod.fst ++ [k] := by
  induction m with
  | nil => simp [mapSet]
  | cons e rest ih =>
    obtain ⟨a, b⟩ := e
    simp only [mapSet]
    by_cases hak : a = k
    · subst hak
      simp
    · have hka : ¬ k = a := fun h => hak h.symm
      simp only [if_neg hak, List.map_cons, List.mem_cons, hka, false_or, ih]
      by_cases hm : k ∈ rest.map Prod.fst <;> simp [hm]

theorem mapSet_keys_nodup {m : List (String × PrisjaktProduct)} {k : String}
    {v : PrisjaktProduct} (h : (m.map Prod.fst).Nodup) :
    ((mapSet m k v).map Prod.fst).Nodup := by
  rw [mapSet_fst]
  split
  · exact h
  · next hk => simp [List.nodup_append, h, hk]

theorem insertByStore_entriesOk {m : List (String × PrisjaktProduct)}
    {p : PrisjaktProduct} (h : entriesOk m) : entriesOk (insertByStore m p) := by
  intro e he
  unfold insertByStore at he
  split at he
  · rcases mem_mapSet he with rfl | hm
    · rfl
    · exact h e hm
  · split at he
    · rcases mem_mapSet he with rfl | hm
      · rfl
      · exact h e hm
    · exact h e he

theorem insertByStore_keys_nodup {m : List (String × PrisjaktProduct)}
    {p : PrisjaktProduct} (h : (m.map Prod.fst).Nodup) :
    ((insertByStore m p).map Prod.fst).Nodup := by
  unfold insertByStore
  split
  · exact mapSet_keys_nodup h
  · split
    · exact mapSet_keys_nodup h
    · exact h

theorem foldl_insertByStore_preserve (P : List (String × PrisjaktProduct) → Prop)
    (hstep : ∀ m p, P m → P (insertByStore m p)) :
    ∀ (l : List PrisjaktProduct) (m), P m → P (l.foldl insertByStore m) := by
  intro l
  induction l with
  | nil => intro m hm; simpa using hm
  | cons p rest ih =>
    intro m hm
    exact ih _ (hstep m p hm)

theorem byStoreFold_entriesOk (l : List PrisjaktProduct) : entriesOk (byStoreFold l) :=
  foldl_insertByStore_preserve entriesOk
    (fun _ _ h => insertByStore_entriesOk h) l [] (by intro e he; cases he)

theorem byStoreFold_keys_nodup (l : List PrisjaktProduct) :
    ((byStoreFold l).map Prod.fst).Nodup :=
  foldl_insertByStore_preserve (fun m => (m.map Prod.fst).Nodup)
    (fun _ _ h => insertByStore_keys_nodup h) l [] (by simp)

theorem mapLookup_insertByStore (m : List (String × PrisjaktProduct))
    (p : PrisjaktProduct) (k : String) :
    mapLookup (insertByStore m p) k = bestStep k (mapLookup m k) p := by
  unfold insertByStore bestStep
  by_cases hk : storeKey p = k
  · subst hk
    cases h : mapLookup m (storeKey p) with
    | none => simp [mapLookup_mapSet, h]
    | some prev =>
      by_cases hlt : p.price < prev.price
      · simp [hlt, mapLookup_mapSet, h, pickBetter]
      · simp [hlt, h, pickBetter]
  · cases h : mapLookup m (storeKey p) with
    | none => simp [mapLookup_mapSet, hk]
    | some prev =>
      by_cases hlt : p.price < prev.price
      · simp [hlt, mapLookup_mapSet, hk]
      · simp [hlt, hk]

theorem mapLookup_byStoreFold' :
    ∀ (l : List PrisjaktProduct) (m) (k : String),
      mapLookup (l.foldl insertByStore m) k = bestFrom k (mapLookup m k) l := by
  intro l
  induction l with
  | nil => intro m k; simp [bestFrom]
  | cons p rest ih =>
    intro m k
    simp only [List.foldl_cons]
    rw [ih (insertByStore m p) k, mapLookup_insertByStore]
    rfl

theorem mapLookup_byStoreFold (l : List PrisjaktProduct) (k : String) :
    mapLookup (byStoreFold l) k = bestFrom k none l := by
  have := mapLookup_byStoreFold' l [] k
  simpa [mapLookup] using this

theorem bestFrom_eq_none {k : String} :
    ∀ {l : List PrisjaktProduct} {a}, bestFrom k a l = none →
      a = none ∧ ∀ p ∈ l, storeKey p ≠ k := by
  intro l
  induction l with
  | nil =>
    intro a h
    refine ⟨h, ?_⟩
    intro p hp; cases hp
  | cons p rest ih =>
    intro a h
    have h' := @ih (bestStep k a p) h
    have hstep := h'.1
    unfold bestStep at hstep
    split at hstep
    · cases a <;> simp at hstep
    · next hne =>
      refine ⟨hstep, ?_⟩
      intro q hq
      rcases List.mem_cons.mp hq with rfl | hq2
      · exact hne
      · exact h'.2 q hq2

theorem pickBetter_price_le_left (q p : PrisjaktProduct) :
    (pickBetter q p).price ≤ q.price := by
  unfold pickBetter
  split
  · next h => exact le_of_lt h
  · exact le_refl _

theorem pickBetter_price_le_right (q p : PrisjaktProduct) :
    (pickBetter q p).price ≤ p.price := by
  unfold pickBetter
  split
  · exact le_refl _
  · next h => exact not_lt.mp h

theorem pickBetter_eq_or (q p : PrisjaktProduct) :
    pickBetter q p = q ∨ pickBetter q p = p := by
  unfold pickBetter
  split
  · exact Or.inr rfl
  · exact Or.inl rfl

theorem bestFrom_le_acc {k : String} :
    ∀ {l : List PrisjaktProduct} {q o}, bestFrom k (some q) l = some o →
      o.price ≤ q.price := by
  intro l
  induction l with
  | nil =>
    intro q o h
    simp only [bestFrom, List.foldl_nil, Option.some.injEq] at h
    rw [← h]
  | cons p rest ih =>
    intro q o h
    have h' : bestFrom k (bestStep k (some q) p) rest = some o := h
    unfold bestStep at h'
    split at h'
    · exact le_trans (ih h') (pickBetter_price_le_left q p)
    · exact ih h'

theorem bestFrom_some_mem {k : String} :
    ∀ {l : List PrisjaktProduct} {a o}, bestFrom k a l = some o →
      a = some o ∨ (o ∈ l ∧ storeKey o = k) := by
  intro l
  induction l with
  | nil =>
    intro a o h
    exact Or.inl h
  | cons p rest ih =>
    intro a o h
    rcases @ih (bestStep k a p) o h with h1 | h1
    · unfold bestStep at h1
      split at h1
      · next hk =>
        cases a with
        | none =>
          simp only [Option.some.injEq] at h1
          exact Or.inr ⟨h1 ▸ List.mem_cons_self _ _, h1 ▸ hk⟩
        | some q =>
          simp only [Option.some.injEq] at h1
          rcases pickBetter_eq_or q p with he | he
          · exact Or.inl (by rw [← h1, he])
          · refine Or.inr ⟨?_, ?_⟩
            · rw [← h1, he]; exact List.mem_cons_self _ _
            · rw [← h1, he]; exact hk
      · exact Or.inl h1
    · exact Or.inr ⟨List.mem_cons_of_mem _ h1.1, h1.2⟩

theorem bestFrom_min {k : String} :
    ∀ {l : List PrisjaktProduct} {a o}, bestFrom k a l = some o →
      ∀ p ∈ l, storeKey p = k → o.price ≤ p.price := by
  intro l
  induction l with
  | nil =>
    intro a o _ p hp
    cases hp
  | cons hd rest ih =>
    intro a o h p hp hk
    rcases List.mem_cons.mp hp with rfl | hp2
    · have h' : bestFrom k (bestStep k a p) rest = some o := h
      have hstep : ∃ v, bestStep k a p = some v ∧ v.price ≤ p.price := by
        unfold bestStep
        rw [if_pos hk]
        cases a with
        | none => exact ⟨p, rfl, le_refl _⟩
        | some q => exact ⟨pickBetter q p, rfl, pickBetter_price_le_right q p⟩
      rcases hstep with ⟨v, hv, hvp⟩
      rw [hv] at h'
      exact le_trans (bestFrom_le_acc h') hvp
    · exact ih h p hp2 hk

theorem mapLookup_mem :
    ∀ {m : List (String × PrisjaktProduct)} {k v}, mapLookup m k = some v → (k, v) ∈ m := by
  intro m
  induction m with
  | nil => intro k v h; cases h
  | cons e rest ih =>
    obtain ⟨a, b⟩ := e
    intro k v h
    simp only [mapLookup] at h
    split at h
    · next hak =>
      simp only [Option.some.injEq] at h
      subst hak; subst h
      exact List.mem_cons_self _ _
    · exact List.mem_cons_of_mem _ (ih h)

theorem mem_foldl_insertByStore :
    ∀ {l : List PrisjaktProduct} {m e}, e ∈ l.foldl insertByStore m →
      e ∈ m ∨ e.2 ∈ l := by
  intro l
  induction l with
  | nil =>
    intro m e h
    exact Or.inl (by simpa using h)
  | cons p rest ih =>
    intro m e h
    rcases @ih (insertByStore m p) e h with h1 | h1
    · unfold insertByStore at h1
      split at h1
      · rcases mem_mapSet h1 with rfl | hm
        · exact Or.inr (List.mem_cons_self _ _)
        · exact Or.inl hm
      · split at h1
        · rcases mem_mapSet h1 with rfl | hm
          · exact Or.inr (List.mem_cons_self _ _)
          · exact Or.inl hm
        · exact Or.inl h1
    · exact Or.inr (List.mem_cons_of_mem _ h1)

theorem mem_byStoreFold_values {l : List PrisjaktProduct} {o : PrisjaktProduct}
    (h : o ∈ (byStoreFold l).map Prod.snd) : o ∈ l := by
  rcases List.mem_map.mp h with ⟨e, he, rfl⟩
  rcases mem_foldl_insertByStore he with h1 | h1
  · cases h1
  · exact h1

theorem values_filter_le_one :
    ∀ {m : List (String × PrisjaktProduct)}, (m.map Prod.fst).Nodup → entriesOk m →
      ∀ k, ((m.map Prod.snd).filter (fun o => storeKey o == k)).length ≤ 1 := by
  intro m
  induction m with
  | nil => intro _ _ k; simp
  | cons e rest ih =>
    obtain ⟨a, b⟩ := e
    intro hnd hok k
    simp only [List.map_cons, List.nodup_cons] at hnd
    have hb : storeKey b = a := hok (a, b) (List.mem_cons_self _ _)
    have hrest : entriesOk rest := fun e he => hok e (List.mem_cons_of_mem _ he)
    by_cases hak : storeKey b = k
    · have hnone : (rest.map Prod.snd).filter (fun o => storeKey o == k) = [] := by
        rw [List.filter_eq_nil_iff]
        intro o ho
        rcases List.mem_map.mp ho with ⟨e', he', rfl⟩
        have : storeKey e'.2 = e'.1 := hrest e' he'
        simp only [beq_iff_eq, this]
        intro hek
        exact hnd.1 (by
          rw [← hb, hak, ← hek]
          exact List.mem_map_of_mem Prod.fst he')
      simp [hak, hnone]
    · simp only [List.map_cons, List.filter_cons]
      rw [if_neg (by simpa using hak)]
      exact ih hnd.2 hrest k

theorem length_le_one_mem_eq {l : List PrisjaktProduct} {o : PrisjaktProduct}
    (hlen : l.length ≤ 1) (hmem : o ∈ l) : l = [o] := by
  cases l with
  | nil => cases hmem
  | cons a rest =>
    cases rest with
    | nil =>
      rcases List.mem_cons.mp hmem with rfl | h
      · rfl
      · cases h
    | cons b rest' => simp at hlen

/-! ## Lemmas about the product-page extractor -/

theorem goShopOffer_some {n u : String} {g : GoShopAnchor} {o : PrisjaktProduct}
    (h : goShopOffer n u g = some o) :
    0 < o.price ∧ o.name = n ∧ o.store ≠ "" ∧ o.availability = goShopAvail g := by
  simp only [goShopOffer] at h
  split at h
  · cases h
  · next hstore =>
    split at h
    · cases h
    · split at h
      · cases h
      · split at h
        · cases h
        · next hq =>
          have ho := Option.some.inj h
          refine ⟨?_, ?_, ?_, ?_⟩
          · rw [← ho]; exact lt_of_not_le hq
          · rw [← ho]
          · rw [← ho]; exact (not_or.mp hstore).1
          · rw [← ho]

theorem mem_collectGoShopOffers {page : Page} {url : String} {o : PrisjaktProduct}
    (h : o ∈ collectGoShopOffers page url) :
    (∃ g ∈ page.goShops, goShopOffer (h1Name page) url g = some o) ∧
      h1Name page ≠ "" := by
  unfold collectGoShopOffers at h
  split at h
  · cases h
  · next hname => exact ⟨List.mem_filterMap.mp h, hname⟩

theorem storeKey_forceNotAvailable (o : PrisjaktProduct) :
    storeKey (forceNotAvailable o) = storeKey o := rfl

theorem price_forceNotAvailable (o : PrisjaktProduct) :
    (forceNotAvailable o).price = o.price := rfl

/-- The offers of the extractor output, without the availability override. -/
theorem extract_filter_key (page : Page) (url : String) (k : String) :
    (extractOffersFromProductPageNaively page url).filter (fun x => storeKey x == k) =
      (if page.noStockMarker then List.map forceNotAvailable else id)
        (((byStoreFold (collectGoShopOffers page url)).map Prod.snd).filter
          (fun x => storeKey x == k)) := by
  unfold extractOffersFromProductPageNaively
  split
  · rw [List.filter_map]
    congr 1
  · rfl

/-- C5: if the collected go-to-shop offers contain one with store key `k`
(in particular when the page carries two offers for the same store at
different prices), the extractor returns exactly one offer with that store
key, and its price is the minimum — both a lower bound for, and attained
by, the collected offers with that key. -/
theorem c5_lowest_price_per_store (page : Page) (url k : String)
    (p : PrisjaktProduct) (hp : p ∈ collectGoShopOffers page url)
    (hk : storeKey p = k) :
    ∃ o, (extractOffersFromProductPageNaively page url).filter
        (fun x => storeKey x == k) = [o] ∧
      (∀ q ∈ collectGoShopOffers page url, storeKey q = k → o.price ≤ q.price) ∧
      (∃ q ∈ collectGoShopOffers page url, storeKey q = k ∧ q.price = o.price) := by
  set l := collectGoShopOffers page url with hl
  have hlookup := mapLookup_byStoreFold l k
  cases hbest : bestFrom k none l with
  | none =>
    exact absurd hk ((bestFrom_eq_none hbest).2 p hp)
  | some o0 =>
    rw [hbest] at hlookup
    have hmem_entry : (k, o0) ∈ byStoreFold l := mapLookup_mem hlookup
    have hk0 : storeKey o0 = k := byStoreFold_entriesOk l (k, o0) hmem_entry
    have hval : o0 ∈ (byStoreFold l).map Prod.snd :=
      List.mem_map.mpr ⟨(k, o0), hmem_entry, rfl⟩
    have hfilt : o0 ∈ ((byStoreFold l).map Prod.snd).filter (fun x => storeKey x == k) :=
      List.mem_filter.mpr ⟨hval, by simp [hk0]⟩
    have hlen := values_filter_le_one (byStoreFold_keys_nodup l) (byStoreFold_entriesOk l) k
    have hfe : ((byStoreFold l).map Prod.snd).filter (fun x => storeKey x == k) = [o0] :=
      length_le_one_mem_eq hlen hfilt
    have hmin : ∀ q ∈ l, storeKey q = k → o0.price ≤ q.price :=
      bestFrom_min hbest
    have hreal : o0 ∈ l ∧ storeKey o0 = k := by
      rcases bestFrom_some_mem hbest with h | h
      · cases h
      · exact h
    rw [extract_filter_key, hfe]
    cases hns : page.noStockMarker with
    | true =>
      refine ⟨forceNotAvailable o0, by simp, ?_, ?_⟩
      · intro q hq hqk
        rw [price_forceNotAvailable]
        exact hmin q hq hqk
      · exact ⟨o0, hreal.1, hreal.2, (price_forceNotAvailable o0).symm⟩
    | false =>
      exact ⟨o0, by simp, hmin, ⟨o0, hreal.1, hreal.2, rfl⟩⟩

/-- Witness for C5: on a page with two go-to-shop offers for Webhallen at
1200 kr and 1100 kr, the extractor yields exactly one Webhallen offer, at a
price bounded by (and attained among) the collected prices. -/
theorem c5_witness :
    ∃ p, (p ∈ collectGoShopOffers pageC5 "u" ∧ storeKey p = "webhallen") ∧
      ∃ o, (extractOffersFromProductPageNaively pageC5 "u").filter
          (fun x => storeKey x == "webhallen") = [o] ∧
        (∀ q ∈ collectGoShopOffers pageC5 "u", storeKey q = "webhallen" →
          o.price ≤ q.price) ∧
        (∃ q ∈ collectGoShopOffers pageC5 "u", storeKey q = "webhallen" ∧
          q.price = o.price) := by
  have hp : ∃ p ∈ collectGoShopOffers pageC5 "u", storeKey p = "webhallen" := by decide
  rcases hp with ⟨p, hp1, hp2⟩
  exact ⟨p, ⟨hp1, hp2⟩, c5_lowest_price_per_store pageC5 "u" "webhallen" p hp1 hp2⟩

/-- C6: the page-wide no-stock marker forces every returned offer to
`not_available`; without it, each returned offer comes from a go-to-shop
anchor and carries exactly the availability derived from that anchor's stock
icon classes (`in_stock` if the in-stock icon is present, else `incoming` if
the incoming icon is present, else `not_available` — which is what
`goShopAvail` computes). -/
theorem c6_no_stock_override (page : Page) (url : String) :
    (page.noStockMarker = true →
      ∀ o ∈ extractOffersFromProductPageNaively page url,
        o.availability = .not_available) ∧
    (page.noStockMarker = false →
      ∀ o ∈ extractOffersFromProductPageNaively page url,
        ∃ g ∈ page.goShops, goShopOffer (h1Name page) url g = some o ∧
          o.availability = goShopAvail g) := by
  constructor
  · intro hns o ho
    unfold extractOffersFromProductPageNaively at ho
    rw [hns] at ho
    simp only [if_pos rfl] at ho
    rcases List.mem_map.mp ho with ⟨o', _, rfl⟩
    rfl
  · intro hns o ho
    unfold extractOffersFromProductPageNaively at ho
    rw [hns] at ho
    simp only [Bool.false_eq_true, if_false] at ho
    have hcoll : o ∈ collectGoShopOffers page url := mem_byStoreFold_values ho
    rcases (mem_collectGoShopOffers hcoll).1 with ⟨g, hg, hgo⟩
    exact ⟨g, hg, hgo, (goShopOffer_some hgo).2.2.2⟩

/-- Witness for C6: `pageC6` carries the no-stock marker and a single offer
whose icon says in-stock; the returned offer is nevertheless
`not_available`. -/
theorem c6_witness :
    pageC6.noStockMarker = true ∧
    ∀ o ∈ extractOffersFromProductPageNaively pageC6 "u",
      o.availability = .not_available :=
  ⟨rfl, (c6_no_stock_override pageC6 "u").1 rfl⟩

/-! ## Lemmas about the naive extractor -/

theorem anchorOffer_some {a : SearchAnchor} {o : PrisjaktProduct}
    (h : anchorOffer a = some o) :
    o.name ≠ "" ∧ 0 < o.price ∧ o.store = "Prisjakt" := by
  simp only [anchorOffer] at h
  split at h
  · cases h
  · next hname =>
    split at h
    · cases h
    · split at h
      · cases h
      · split at h
        · cases h
        · split at h
          · cases h
          · next hq =>
            have ho := Option.some.inj h
            refine ⟨?_, ?_, ?_⟩
            · rw [← ho]; exact hname
            · rw [← ho]; exact lt_of_not_le hq
            · rw [← ho]

theorem mem_extractProductsNaively {page : Page} {o : PrisjaktProduct}
    (h : o ∈ extractProductsNaively page) :
    ∃ a ∈ page.anchors, anchorOffer a = some o := by
  unfold extractProductsNaively at h
  have h1 : o ∈ dedupeProducts (page.anchors.filterMap anchorOffer) :=
    (List.take_sublist 10 _).subset h
  exact List.mem_filterMap.mp (mem_dedupeProducts h1)

theorem extractProductsNaively_store {page : Page} {o : PrisjaktProduct}
    (h : o ∈ extractProductsNaively page) : o.store = "Prisjakt" := by
  rcases mem_extractProductsNaively h with ⟨a, _, ha⟩
  exact (anchorOffer_some ha).2.2

/-- The naive stage is annihilated by the store filter: every offer it emits
has store `"Prisjakt"`. -/
theorem filterPrisjaktStore_naive_nil (page : Page) :
    filterPrisjaktStore (extractProductsNaively page) = [] := by
  unfold filterPrisjaktStore
  rw [List.filter_eq_nil_iff]
  intro o ho
  have hs := extractProductsNaively_store ho
  simp only [hs]
  decide

/-- C8: every offer of the naive extractor has a non-empty name and a
positive price (candidates lacking either were skipped), and the final
output is deduplicated (pairwise distinct identity keys) and capped at 10. -/
theorem c8_naive_bounds (page : Page) :
    (∀ o ∈ extractProductsNaively page, o.name ≠ "" ∧ 0 < o.price) ∧
    (extractProductsNaively page).length ≤ 10 ∧
    ((extractProductsNaively page).map dedupeKey).Nodup := by
  refine ⟨?_, ?_, ?_⟩
  · intro o ho
    rcases mem_extractProductsNaively ho with ⟨a, _, ha⟩
    exact ⟨(anchorOffer_some ha).1, (anchorOffer_some ha).2.1⟩
  · exact List.length_take_le 10 _
  · exact ((List.take_sublist 10 _).map dedupeKey).nodup (dedupeGo_keys_nodup [] _)

/-- Witness for C8: the offer extracted from the good anchor of `pageC8`
is a member of the output and satisfies the invariant. -/
theorem c8_witness :
    offerC8 ∈ extractProductsNaively pageC8 ∧ (offerC8.name ≠ "" ∧ 0 < offerC8.price) :=
  ⟨by decide, (c8_naive_bounds pageC8).1 offerC8 (by decide)⟩

/-- C10: every naive-extractor offer carries the host brand as its store, so
the store-filtered naive stage is always empty and `scrapePrisjaktSearch`
behaves exactly as if the naive stage were removed — the naive stage can
never be the winning stage. -/
theorem c10_naive_never_wins :
    (∀ page : Page, filterPrisjaktStore (extractProductsNaively page) = []) ∧
    (∀ (env : String → FetchResult) (q : String),
      scrapePrisjaktSearch env q = scrapePrisjaktSearchNoNaive env q) := by
  refine ⟨filterPrisjaktStore_naive_nil, ?_⟩
  intro env q
  unfold scrapePrisjaktSearch scrapePrisjaktSearchNoNaive
  cases env (searchUrl q) with
  | thrown => rfl
  | resp ok page =>
    cases ok with
    | false => rfl
    | true =>
      simp only [Bool.not_true, Bool.false_eq_true, if_false]
      rw [filterPrisjaktStore_naive_nil page]
      simp

/-! ## Lemmas about the structured-data extractor -/

theorem jget_typed : ∀ {fs : JsonFields}, ldTypedFields fs = true →
    ∀ (k : String), ldTyped (jget fs k) = true
  | .nil, _, _ => rfl
  | .cons _ _ rest, h, k => by
    simp only [ldTypedFields, Bool.and_eq_true] at h
    simp only [jget]
    split
    · exact h.1
    · exact jget_typed h.2 k

theorem get_typed {j : Json} (h : ldTyped j = true) (k : String) :
    ldTyped (j.get k) = true := by
  cases j with
  | obj fs =>
    simp only [ldTyped, Bool.and_eq_true] at h
    exact jget_typed h.2 k
  | null => rfl
  | bool b => rfl
  | num q => rfl
  | str s => rfl
  | arr xs => rfl

theorem jlToList_typed : ∀ {xs : JsonList}, ldTypedList xs = true →
    ∀ x ∈ jlToList xs, ldTyped x = true
  | .nil, _, x, hx => by cases hx
  | .cons j rest, h, x, hx => by
    simp only [ldTypedList, Bool.and_eq_true] at h
    rcases List.mem_cons.mp hx with rfl | hx2
    · exact h.1
    · exact jlToList_typed h.2 x hx2

theorem normalizeOffers_typed {j : Json} (h : ldTyped j = true) :
    ∀ x ∈ normalizeOffers j, ldTyped x = true := by
  intro x hx
  unfold normalizeOffers at hx
  split at hx
  · cases hx
  · split at hx
    · next xs =>
      exact jlToList_typed (by simpa [ldTyped] using h) x hx
    · rcases List.mem_cons.mp hx with rfl | h2
      · exact h
      · cases h2

theorem name_of_typed {fs : JsonFields} (hstr : strOrNull (jget fs "name") = true)
    (htr : jsTruthy (jget fs "name") = true) :
    jsToString (jget fs "name") ≠ "" := by
  cases hn : jget fs "name" with
  | str s =>
    rw [hn] at htr
    simp only [jsTruthy] at htr
    simpa [jsToString] using htr
  | null => rw [hn] at htr; simp [jsTruthy] at htr
  | bool b => rw [hn] at hstr; simp [strOrNull] at hstr
  | num q => rw [hn] at hstr; simp [strOrNull] at hstr
  | arr xs => rw [hn] at hstr; simp [strOrNull] at hstr
  | obj fs' => rw [hn] at hstr; simp [strOrNull] at hstr

theorem store_of_typed {offer : Json} (h : ldTyped offer = true) {d : String}
    (hd : d ≠ "") : jsOrDefault ((offer.get "seller").get "name") d ≠ "" := by
  have h1 : ldTyped (offer.get "seller") = true := get_typed h _
  cases hs : offer.get "seller" with
  | obj sfs =>
    rw [hs] at h1
    simp only [ldTyped, Bool.and_eq_true] at h1
    cases hn : jget sfs "name" with
    | str s =>
      by_cases hse : s = ""
      · simpa [Json.get, hn, jsOrDefault, jsTruthy, hse] using hd
      · simp [Json.get, hn, jsOrDefault, jsTruthy, hse, jsToString]
    | null => simpa [Json.get, hn, jsOrDefault, jsTruthy] using hd
    | bool b => rw [hn] at h1; simp [strOrNull] at h1
    | num q => rw [hn] at h1; simp [strOrNull] at h1
    | arr xs => rw [hn] at h1; simp [strOrNull] at h1
    | obj fs2 => rw [hn] at h1; simp [strOrNull] at h1
  | null => simpa [Json.get, jsOrDefault, jsTruthy] using hd
  | bool b => simpa [Json.get, jsOrDefault, jsTruthy] using hd
  | num q => simpa [Json.get, jsOrDefault, jsTruthy] using hd
  | str s => simpa [Json.get, jsOrDefault, jsTruthy] using hd
  | arr xs => simpa [Json.get, jsOrDefault, jsTruthy] using hd

theorem typeIsProduct_obj {j : Json} (h : typeIsProduct j = true) :
    ∃ fs, j = .obj fs := by
  cases j with
  | obj fs => exact ⟨fs, rfl⟩
  | null => simp [typeIsProduct, Json.get] at h
  | bool b => simp [typeIsProduct, Json.get] at h
  | num q => simp [typeIsProduct, Json.get] at h
  | str s => simp [typeIsProduct, Json.get] at h
  | arr xs => simp [typeIsProduct, Json.get] at h

theorem offerFromLd_price {obj offer : Json} {o : PrisjaktProduct}
    (h : offerFromLd obj offer = some o) :
    0 < o.price ∧ o.name = jsToString (obj.get "name") ∧
      o.store = jsOrDefault ((offer.get "seller").get "name") "Unknown" ∧
      o.id = ldIdBase obj ++ "::" ++ ldOfferDisc offer := by
  simp only [offerFromLd] at h
  split at h
  · cases h
  · next hq =>
    split at h
    · cases h
    · next hle =>
      have ho := Option.some.inj h
      refine ⟨?_, ?_, ?_, ?_⟩
      · rw [← ho]; exact lt_of_not_le hle
      · rw [← ho]
      · rw [← ho]
      · rw [← ho]

theorem productOffers_good {j : Json} (h : ldTyped j = true) :
    ∀ o ∈ productOffers j, GoodOffer o := by
  intro o ho
  unfold productOffers at ho
  split at ho
  · next hguard =>
    simp only [Bool.and_eq_true] at hguard
    rcases List.mem_filterMap.mp ho with ⟨offer, hofm, hoffer⟩
    have htyped : ldTyped offer = true :=
      normalizeOffers_typed (get_typed h "offers") offer hofm
    rcases typeIsProduct_obj hguard.1 with ⟨fs, rfl⟩
    have hflds : strOrNull (jget fs "name") = true ∧ ldTypedFields fs = true := by
      simpa [ldTyped, Bool.and_eq_true] using h
    have hfacts := offerFromLd_price hoffer
    refine ⟨hfacts.1, ?_, ?_⟩
    · rw [hfacts.2.1]
      exact name_of_typed hflds.1 hguard.2
    · rw [hfacts.2.2.1]
      exact store_of_typed htyped (by decide)
  · cases ho

mutual
theorem collectLd_good : ∀ (j : Json), ldTyped j = true → ∀ o ∈ collectLd j, GoodOffer o
  | .obj fs, h, o, ho => by
    simp only [collectLd] at ho
    rcases List.mem_append.mp ho with h1 | h1
    · exact productOffers_good h o h1
    · have hf : ldTypedFields fs = true := by
        simp only [ldTyped, Bool.and_eq_true] at h
        exact h.2
      exact collectLdFields_good fs hf o h1
  | .arr xs, h, o, ho => by
    simp only [collectLd] at ho
    exact collectLdList_good xs (by simpa [ldTyped] using h) o ho
  | .null, _, o, ho => by simp [collectLd] at ho
  | .bool b, _, o, ho => by simp [collectLd] at ho
  | .num q, _, o, ho => by simp [collectLd] at ho
  | .str s, _, o, ho => by simp [collectLd] at ho
theorem collectLdList_good :
    ∀ (xs : JsonList), ldTypedList xs = true → ∀ o ∈ collectLdList xs, GoodOffer o
  | .nil, _, o, ho => by simp [collectLdList] at ho
  | .cons j rest, h, o, ho => by
    simp only [collectLdList] at ho
    simp only [ldTypedList, Bool.and_eq_true] at h
    rcases List.mem_append.mp ho with h1 | h1
    · exact collectLd_good j h.1 o h1
    · exact collectLdList_good rest h.2 o h1
theorem collectLdFields_good :
    ∀ (fs : JsonFields), ldTypedFields fs = true → ∀ o ∈ collectLdFields fs, GoodOffer o
  | .nil, _, o, ho => by simp [collectLdFields] at ho
  | .cons k v rest, h, o, ho => by
    simp only [collectLdFields] at ho
    simp only [ldTypedFields, Bool.and_eq_true] at h
    rcases List.mem_append.mp ho with h1 | h1
    · exact collectLd_good v h.1 o h1
    · exact collectLdFields_good rest h.2 o h1
end

theorem extractProductsFromJsonLd_good {page : Page} (h : pageLdTyped page = true) :
    ∀ o ∈ extractProductsFromJsonLd page, GoodOffer o := by
  intro o ho
  unfold extractProductsFromJsonLd at ho
  have ho' := mem_dedupeProducts ho
  rcases List.mem_flatten.mp ho' with ⟨l, hl, hol⟩
  rcases List.mem_map.mp hl with ⟨b, hb, rfl⟩
  have hbt := (List.all_eq_true.mp h) b hb
  cases b with
  | none => simp [blockProducts] at hol
  | some j =>
    cases j with
    | arr xs =>
      simp only [blockProducts] at hol
      rcases List.mem_flatten.mp hol with ⟨l2, hl2, hol2⟩
      rcases List.mem_map.mp hl2 with ⟨x, hx, rfl⟩
      have hxt : ldTyped x = true := jlToList_typed (by simpa [ldTyped] using hbt) x hx
      exact collectLd_good x hxt o hol2
    | null => simp only [blockProducts] at hol; exact collectLd_good _ hbt o hol
    | bool b' => simp only [blockProducts] at hol; exact collectLd_good _ hbt o hol
    | num q => simp only [blockProducts] at hol; exact collectLd_good _ hbt o hol
    | str s => simp only [blockProducts] at hol; exact collectLd_good _ hbt o hol
    | obj fs => simp only [blockProducts] at hol; exact collectLd_good _ hbt o hol

/-- C9 counterexample: a Product node with two offers both lacking the
offer-url/seller-name discriminator produces two candidate offers with the
same id `"N::"` — the id is not unique across the node's offers. -/
theorem c9_counterexample :
    (productOffers objC9).map PrisjaktProduct.id = ["N::", "N::"] := by decide

/-- C9 (amended): within one Product node, the id distinguishes exactly the
offers whose `{offerUrl|sellerName}` discriminator differs: two offers of the
same node with distinct discriminators get distinct ids (offers with equal
discriminators — e.g. both absent — collide, see the counterexample). -/
theorem c9_id_uniqueness (obj j1 j2 : Json) (o1 o2 : PrisjaktProduct)
    (_hm1 : j1 ∈ normalizeOffers (obj.get "offers"))
    (_hm2 : j2 ∈ normalizeOffers (obj.get "offers"))
    (h1 : offerFromLd obj j1 = some o1) (h2 : offerFromLd obj j2 = some o2)
    (hd : ldOfferDisc j1 ≠ ldOfferDisc j2) : o1.id ≠ o2.id := by
  rw [(offerFromLd_price h1).2.2.2, (offerFromLd_price h2).2.2.2]
  intro he
  apply hd
  have hdata := congrArg String.data he
  simp only [String.data_append] at hdata
  exact String.ext (List.append_cancel_left hdata)

/-- Witness for C9: in `objW9` the two offers carry urls `https://a` and
`https://b`; their ids `"N::https://a"` and `"N::https://b"` differ. -/
theorem c9_witness :
    (offerK1 ∈ normalizeOffers (objW9.get "offers") ∧
     offerK2 ∈ normalizeOffers (objW9.get "offers") ∧
     offerFromLd objW9 offerK1 = some prodK1 ∧
     offerFromLd objW9 offerK2 = some prodK2 ∧
     ldOfferDisc offerK1 ≠ ldOfferDisc offerK2) ∧
    prodK1.id ≠ prodK2.id := by
  have hm1 : offerK1 ∈ normalizeOffers (objW9.get "offers") := by
    show offerK1 ∈ [offerK1, offerK2]
    exact List.mem_cons_self _ _
  have hm2 : offerK2 ∈ normalizeOffers (objW9.get "offers") := by
    show offerK2 ∈ [offerK1, offerK2]
    simp
  refine ⟨⟨hm1, hm2, rfl, rfl, by decide⟩, ?_⟩
  exact c9_id_uniqueness objW9 offerK1 offerK2 prodK1 prodK2 hm1 hm2 rfl rfl (by decide)

/-! ## Lemmas about the orchestrators -/

theorem mem_filterPrisjaktStore {l : List PrisjaktProduct} {o : PrisjaktProduct}
    (h : o ∈ filterPrisjaktStore l) :
    o ∈ l ∧ strContains (jsLowerStr o.store) "prisjakt" = false := by
  unfold filterPrisjaktStore at h
  have h' := List.mem_filter.mp h
  refine ⟨h'.1, ?_⟩
  simpa using h'.2

theorem extractPrimarySearchItems_good {page : Page} {o : PrisjaktProduct}
    (h : o ∈ extractPrimarySearchItems page) : GoodOffer o := by
  simp only [extractPrimarySearchItems] at h
  split at h
  · cases h
  · split at h
    · cases h
    · split at h
      · cases h
      · split at h
        · cases h
        · split at h
          · cases h
          · split at h
            · next hcond =>
              rcases List.mem_cons.mp h with rfl | h2
              · exact ⟨hcond.1, hcond.2.2, hcond.2.1⟩
              · cases h2
            · cases h

theorem goodOffer_forceNotAvailable {o : PrisjaktProduct} (h : GoodOffer o) :
    GoodOffer (forceNotAvailable o) := h

theorem extractOffersFromProductPageNaively_good {page : Page} {url : String}
    {o : PrisjaktProduct} (h : o ∈ extractOffersFromProductPageNaively page url) :
    GoodOffer o := by
  have values_good : ∀ o' ∈ (byStoreFold (collectGoShopOffers page url)).map Prod.snd,
      GoodOffer o' := by
    intro o' ho'
    have hcol := mem_byStoreFold_values ho'
    have hmem := mem_collectGoShopOffers hcol
    rcases hmem.1 with ⟨g, _, hg⟩
    have hfacts := goShopOffer_some hg
    exact ⟨hfacts.1, by rw [hfacts.2.1]; exact hmem.2, hfacts.2.2.1⟩
  unfold extractOffersFromProductPageNaively at h
  split at h
  · rcases List.mem_map.mp h with ⟨o', ho', rfl⟩
    exact goodOffer_forceNotAvailable (values_good o' ho')
  · exact values_good o h

theorem scrapePrisjaktProduct_good {env : String → FetchResult}
    (henv : EnvTyped env) (u : String) :
    ∀ o ∈ scrapePrisjaktProduct env u, GoodOffer o := by
  intro o ho
  simp only [scrapePrisjaktProduct] at ho
  cases hf : env (productUrlOf u) with
  | thrown => rw [hf] at ho; cases ho
  | resp ok page =>
    rw [hf] at ho
    have hpage : pageLdTyped page = true := by
      have := henv (productUrlOf u)
      rw [hf] at this
      exact this
    cases ok with
    | false => simp at ho
    | true =>
      simp only [Bool.not_true, Bool.false_eq_true, if_false] at ho
      by_cases h1 : 0 < (filterPrisjaktStore (extractProductsFromJsonLd page)).length
      · rw [if_pos h1] at ho
        exact extractProductsFromJsonLd_good hpage o (mem_filterPrisjaktStore ho).1
      · rw [if_neg h1] at ho
        by_cases h2 : 0 < (filterPrisjaktStore
            (extractOffersFromProductPageNaively page (productUrlOf u))).length
        · rw [if_pos h2] at ho
          exact extractOffersFromProductPageNaively_good (mem_filterPrisjaktStore ho).1
        · rw [if_neg h2] at ho
          split at ho
          · exact absurd ho (List.not_mem_nil o)
          · split at ho
            · next hcond =>
              rcases List.mem_cons.mp ho with rfl | h2'
              · exact ⟨hcond.2, hcond.1, by show ("Prisjakt" : String) ≠ ""; decide⟩
              · cases h2'
            · exact absurd ho (List.not_mem_nil o)

theorem scrapePrisjaktSearch_good {env : String → FetchResult}
    (henv : EnvTyped env) (q : String) :
    ∀ o ∈ scrapePrisjaktSearch env q,
      GoodOffer o ∧ strContains (jsLowerStr o.store) "prisjakt" = false := by
  intro o ho
  simp only [scrapePrisjaktSearch] at ho
  cases hf : env (searchUrl q) with
  | thrown => rw [hf] at ho; cases ho
  | resp ok page =>
    rw [hf] at ho
    have hpage : pageLdTyped page = true := by
      have := henv (searchUrl q)
      rw [hf] at this
      exact this
    cases ok with
    | false => simp at ho
    | true =>
      simp only [Bool.not_true, Bool.false_eq_true, if_false] at ho
      by_cases h1 : 0 < (filterPrisjaktStore (extractPrimarySearchItems page)).length
      · rw [if_pos h1] at ho
        have hm := mem_filterPrisjaktStore ho
        exact ⟨extractPrimarySearchItems_good hm.1, hm.2⟩
      · rw [if_neg h1] at ho
        by_cases h2 : 0 < (filterPrisjaktStore (extractProductsFromJsonLd page)).length
        · rw [if_pos h2] at ho
          have hm := mem_filterPrisjaktStore ho
          exact ⟨extractProductsFromJsonLd_good hpage o hm.1, hm.2⟩
        · rw [if_neg h2] at ho
          by_cases h3 : 0 < (filterPrisjaktStore (extractProductsNaively page)).length
          · rw [if_pos h3] at ho
            have hm := mem_filterPrisjaktStore ho
            rcases mem_extractProductsNaively hm.1 with ⟨a, _, ha⟩
            have hfacts := anchorOffer_some ha
            refine ⟨⟨hfacts.2.1, hfacts.1, ?_⟩, hm.2⟩
            rw [hfacts.2.2]
            decide
          · rw [if_neg h3] at ho
            cases hlink : page.firstProductLink with
            | some link =>
              rw [hlink] at ho
              have hm := mem_filterPrisjaktStore ho
              exact ⟨scrapePrisjaktProduct_good henv _ o hm.1, hm.2⟩
            | none =>
              rw [hlink] at ho
              exact absurd ho (List.not_mem_nil o)

/-- C1 (amended): under the typing assumption that JSON-LD `name` fields are
strings (the TypeScript contract — a page whose product-graph `name` is e.g.
an empty array coerces to an empty string), every offer returned by
`scrapePrisjaktSearch` has positive finite price, non-empty name, non-empty
store and a store that does not even contain the brand `prisjakt`
case-insensitively, and every offer returned by `scrapePrisjaktProduct` has
positive finite price, non-empty name and non-empty store — but the
last-resort single-offer path of `scrapePrisjaktProduct` sets the store to
the brand name `Prisjakt` itself (see the counterexample), so the
store-brand clause holds only for the search entry point. -/
theorem c1_offer_invariants (env : String → FetchResult) (henv : EnvTyped env)
    (q : String) :
    (∀ o ∈ scrapePrisjaktSearch env q,
      GoodOffer o ∧ strContains (jsLowerStr o.store) "prisjakt" = false) ∧
    (∀ o ∈ scrapePrisjaktProduct env q, GoodOffer o) :=
  ⟨scrapePrisjaktSearch_good henv q, scrapePrisjaktProduct_good henv q⟩

/-- C1 counterexample: a product page carrying just an `<h1>` and a page
price drives `scrapePrisjaktProduct` into the last-resort path, which returns
a single offer whose store IS `"Prisjakt"` — the claimed invariant
`store ≠ 'Prisjakt'` fails on the entry point's output. -/
theorem c1_counterexample :
    (scrapePrisjaktProduct envC1 "https://www.prisjakt.nu/produkt.php?p=1").map
      PrisjaktProduct.store = ["Prisjakt"] := by decide

/-- Witness for C1: a typed environment serving a clean primary card. -/
theorem c1_witness :
    EnvTyped envW1 ∧
    ((∀ o ∈ scrapePrisjaktSearch envW1 "x",
      GoodOffer o ∧ strContains (jsLowerStr o.store) "prisjakt" = false) ∧
     (∀ o ∈ scrapePrisjaktProduct envW1 "x", GoodOffer o)) :=
  ⟨fun _ => rfl, c1_offer_invariants envW1 (fun _ => rfl) "x"⟩

/-- C2: fetch failures never escape: a thrown fetch or a non-2xx response
makes either entry point return `[]` (the `catch` / `!res.ok` branches), and
a page all of whose JSON-LD blocks are malformed contributes no structured
offers.  Both entry points are total functions into offer lists — in this
embedding no other exception source exists, all parse failures being local. -/
theorem c2_never_throws (env : String → FetchResult) (q : String) :
    (env (searchUrl q) = .thrown → scrapePrisjaktSearch env q = []) ∧
    (∀ page, env (searchUrl q) = .resp false page → scrapePrisjaktSearch env q = []) ∧
    (env (productUrlOf q) = .thrown → scrapePrisjaktProduct env q = []) ∧
    (∀ page, env (productUrlOf q) = .resp false page → scrapePrisjaktProduct env q = []) ∧
    (∀ page : Page, (∀ b ∈ page.ldBlocks, b = none) →
      extractProductsFromJsonLd page = []) := by
  refine ⟨?_, ?_, ?_, ?_, ?_⟩
  · intro h
    unfold scrapePrisjaktSearch
    rw [h]
  · intro page h
    unfold scrapePrisjaktSearch
    rw [h]
    simp
  · intro h
    simp only [scrapePrisjaktProduct]
    rw [h]
  · intro page h
    simp only [scrapePrisjaktProduct]
    rw [h]
    simp
  · intro page h
    unfold extractProductsFromJsonLd
    have hnil : (page.ldBlocks.map blockProducts).flatten = [] := by
      rw [List.flatten_eq_nil_iff]
      intro l hl
      rcases List.mem_map.mp hl with ⟨b, hb, rfl⟩
      rw [h b hb]
      rfl
    rw [hnil]
    rfl

/-- Witness for C2: a network that always throws yields the empty list. -/
theorem c2_witness :
    envThrown (searchUrl "x") = .thrown ∧ scrapePrisjaktSearch envThrown "x" = [] :=
  ⟨rfl, (c2_never_throws envThrown "x").1 rfl⟩

/-- C3: on a successful fetch, the stages of `scrapePrisjaktSearch` run in
the strict order primary-card, JSON-LD, naive-pattern, then recursion into
`scrapePrisjaktProduct` on the page's first product-detail link; each stage's
output is store-filtered before being accepted and the first non-empty
filtered stage determines the result (an absent link with all stages empty
yields `[]`). -/
theorem c3_stage_order (env : String → FetchResult) (q : String) (page : Page)
    (h : env (searchUrl q) = .resp true page) :
    (0 < (filterPrisjaktStore (extractPrimarySearchItems page)).length →
      scrapePrisjaktSearch env q = filterPrisjaktStore (extractPrimarySearchItems page)) ∧
    (filterPrisjaktStore (extractPrimarySearchItems page) = [] →
      0 < (filterPrisjaktStore (extractProductsFromJsonLd page)).length →
      scrapePrisjaktSearch env q = filterPrisjaktStore (extractProductsFromJsonLd page)) ∧
    (filterPrisjaktStore (extractPrimarySearchItems page) = [] →
      filterPrisjaktStore (extractProductsFromJsonLd page) = [] →
      0 < (filterPrisjaktStore (extractProductsNaively page)).length →
      scrapePrisjaktSearch env q = filterPrisjaktStore (extractProductsNaively page)) ∧
    (∀ link, filterPrisjaktStore (extractPrimarySearchItems page) = [] →
      filterPrisjaktStore (extractProductsFromJsonLd page) = [] →
      filterPrisjaktStore (extractProductsNaively page) = [] →
      page.firstProductLink = some link →
      scrapePrisjaktSearch env q =
        filterPrisjaktStore
          (scrapePrisjaktProduct env ("https://www.prisjakt.nu" ++ link))) ∧
    (filterPrisjaktStore (extractPrimarySearchItems page) = [] →
      filterPrisjaktStore (extractProductsFromJsonLd page) = [] →
      filterPrisjaktStore (extractProductsNaively page) = [] →
      page.firstProductLink = none →
      scrapePrisjaktSearch env q = []) := by
  unfold scrapePrisjaktSearch
  rw [h]
  refine ⟨?_, ?_, ?_, ?_, ?_⟩
  · intro h1
    simp [h1]
  · intro h1 h2
    simp [h1, h2]
  · intro h1 h2 h3
    simp [h1, h2, h3]
  · intro link h1 h2 h3 h4
    simp [h1, h2, h3, h4]
  · intro h1 h2 h3 h4
    simp [h1, h2, h3, h4]

/-- Witness for C3: on `pageW1` the primary card wins. -/
theorem c3_witness :
    envW1 (searchUrl "q") = .resp true pageW1 ∧
    0 < (filterPrisjaktStore (extractPrimarySearchItems pageW1)).length ∧
    scrapePrisjaktSearch envW1 "q" =
      filterPrisjaktStore (extractPrimarySearchItems pageW1) :=
  ⟨rfl, by decide, (c3_stage_order envW1 "q" pageW1 rfl).1 (by decide)⟩

end Prisjakt
